import Mathlib

/-
Verification of the Eisenpower local-first synchronization engine
(src/src/App.jsx).  The definitions below are a shallow embedding of the
task data model, the mutation API, the once-per-session tombstone purge,
the debounced-upload guard and the three-way last-write-wins merge
performed by loadCloudData.  Timestamps are modelled as natural numbers
of milliseconds; JavaScript Map objects are modelled as association
lists with JS insertion-order semantics (set on an existing key replaces
the value in place, set on a fresh key appends).
-/

namespace Eisenpower

/-- A subtask: id, text, completion flag, optional grid coordinates.
In the source a subtask with `x !== undefined && x !== null` counts as
extracted onto the board; absence of a coordinate is modelled as `none`. -/
structure Subtask where
  id : Nat
  text : String
  completed : Bool
  x : Option Nat
  y : Option Nat
  deriving Repr, DecidableEq

/-- A task record as stored in the `tasks` / `deletedTasks` arrays of
App.jsx: id, text, grid position, subtasks, completion data, the
`updatedAt` version stamp (absent on legacy records) and, for
tombstones, the `deletedAt` timestamp. -/
structure Task where
  id : Nat
  text : String
  x : Option Nat
  y : Option Nat
  subtasks : List Subtask
  completed : Bool
  completedAt : Option Nat
  updatedAt : Option Nat
  deletedAt : Option Nat
  deriving Repr, DecidableEq

/-- The version of a record as computed throughout App.jsx by the
JavaScript expression `t.updatedAt || t.id`: a missing or zero (falsy)
`updatedAt` falls back to the id. -/
def ver (t : Task) : Nat :=
  match t.updatedAt with
  | some v => if v = 0 then t.id else v
  | none => t.id

/-! ### Local Store load (useState initializer for `tasks`)

The outer `Option` models presence of the localStorage key, the inner
`Option` models the outcome of `JSON.parse` (`none` = the parse throws). -/

/-- The `useState` initializer for `tasks` in App.jsx: parse the primary
key; on parse failure fall back to the backup key; if the backup is
missing or also fails to parse, return the empty list.  When the primary
key is absent the demo `defaults` are returned. -/
def loadTasks (saved backup : Option (Option (List Task))) (defaults : List Task) :
    List Task :=
  match saved with
  | none => defaults
  | some (some ts) => ts
  | some none =>
    match backup with
    | some (some ts) => ts
    | _ => []

/-! ### Recycle-bin purge (auto-purge effect) -/

/-- The once-per-session purge effect of App.jsx: keep a tombstone
exactly when `new Date(task.deletedAt).getTime() > now - 24*60*60*1000`.
A missing `deletedAt` gives `NaN`, whose comparison is false, so the
record is dropped.  The cutoff is computed over the integers to match
JavaScript subtraction. -/
def purgeDeleted (now : Nat) (deleted : List Task) : List Task :=
  deleted.filter fun t =>
    match t.deletedAt with
    | some d => decide ((now : Int) - 24 * 60 * 60 * 1000 < (d : Int))
    | none => false

/-! ### Debounced-upload guard (sync effect) -/

/-- The state observed by the debounced sync effect when its timer
fires.  `lastConvergedHash` stands for `lastConvergedHashRef.current`
(the JSON of the last converged pair, modelled structurally);
`hasSynced` is the `eisenpower-has-synced` localStorage flag. -/
structure SyncState where
  tasks : List Task
  deletedTasks : List Task
  syncInProgress : Bool
  lastConvergedHash : Option (List Task × List Task)
  hasSynced : Bool
  deriving Repr, DecidableEq

/-- Whether the debounced sync effect of App.jsx reaches the upsert
call: it returns early when a sync is in flight, when the local state
equals the last converged state, and when both the task list and the
recycle bin are empty while the has-synced flag is absent. -/
def shouldUpload (s : SyncState) : Bool :=
  if s.syncInProgress then false
  else if s.lastConvergedHash = some (s.tasks, s.deletedTasks) then false
  else if s.tasks.isEmpty && s.deletedTasks.isEmpty && !s.hasSynced then false
  else true

/-! ### Mutation API -/

/-- `handleCreateTask` in App.jsx: a fresh task stamped with
`id = now`, `updatedAt = now`, subtasks re-keyed `now + 1 + i`. -/
def handleCreateTask (tasks : List Task) (txt : String) (subs : List Subtask)
    (mx my : Nat) (now : Nat) : List Task :=
  tasks ++ [{ id := now, text := txt, x := some mx, y := some my,
              subtasks := subs.enum.map fun p => { p.2 with id := now + 1 + p.1 },
              completed := false, completedAt := none,
              updatedAt := some now, deletedAt := none }]

/-- `moveTask` in App.jsx. -/
def moveTask (tasks : List Task) (id mx my now : Nat) : List Task :=
  tasks.map fun t =>
    if t.id = id then { t with x := some mx, y := some my, updatedAt := some now }
    else t

/-- `deleteTask` in App.jsx: if the id is found, append a tombstone
carrying `deletedAt` and a fresh `updatedAt`; the active list is
filtered in either case. -/
def deleteTask (tasks deleted : List Task) (id now delAt : Nat) :
    List Task × List Task :=
  match tasks.find? (fun t => t.id = id) with
  | some t =>
    (tasks.filter (fun t => t.id ≠ id),
     deleted ++ [{ t with deletedAt := some delAt, updatedAt := some now }])
  | none => (tasks.filter (fun t => t.id ≠ id), deleted)

/-- `restoreTask` in App.jsx: if the id is found in the recycle bin,
strip `deletedAt`, stamp a fresh `updatedAt`, append to the active list
and drop the tombstone; otherwise nothing changes. -/
def restoreTask (tasks deleted : List Task) (id now : Nat) :
    List Task × List Task :=
  match deleted.find? (fun t => t.id = id) with
  | some t =>
    (tasks ++ [{ t with deletedAt := none, updatedAt := some now }],
     deleted.filter (fun t => t.id ≠ id))
  | none => (tasks, deleted)

/-- The per-subtask lambda of `toggleSubtask` in App.jsx: flip the
completion flag; when completing a subtask that has an `x` coordinate,
also clear both coordinates. -/
def toggleSubtaskFn (s : Subtask) : Subtask :=
  let newCompleted := !s.completed
  if newCompleted && s.x.isSome then
    { s with completed := newCompleted, x := none, y := none }
  else { s with completed := newCompleted }

/-- `toggleSubtask` in App.jsx. -/
def toggleSubtask (tasks : List Task) (taskId subId now : Nat) : List Task :=
  tasks.map fun t =>
    if t.id = taskId then
      { t with updatedAt := some now,
               subtasks := t.subtasks.map fun s =>
                 if s.id = subId then toggleSubtaskFn s else s }
    else t

/-- `completeTask` in App.jsx. -/
def completeTask (tasks : List Task) (taskId now cAt : Nat) : List Task :=
  tasks.map fun t =>
    if t.id = taskId then
      { t with completed := true, completedAt := some cAt, updatedAt := some now }
    else t

/-- `editTask` in App.jsx. -/
def editTask (tasks : List Task) (taskId : Nat) (txt : String) (now : Nat) :
    List Task :=
  tasks.map fun t =>
    if t.id = taskId then { t with text := txt, updatedAt := some now } else t

/-- `editSubtask` in App.jsx. -/
def editSubtask (tasks : List Task) (taskId subId : Nat) (txt : String)
    (now : Nat) : List Task :=
  tasks.map fun t =>
    if t.id = taskId then
      { t with updatedAt := some now,
               subtasks := t.subtasks.map fun s =>
                 if s.id = subId then { s with text := txt } else s }
    else t

/-- The `onAddSubtask` handler in App.jsx: append a fresh incomplete
subtask keyed by the current time and stamp the parent. -/
def addSubtask (tasks : List Task) (taskId : Nat) (txt : String) (now : Nat) :
    List Task :=
  tasks.map fun t =>
    if t.id = taskId then
      { t with updatedAt := some now,
               subtasks := t.subtasks ++
                 [{ id := now, text := txt, completed := false,
                    x := none, y := none }] }
    else t

/-- `handleSubtaskDrop` in App.jsx (the SUBTASK_EXTRACT branch): give
the subtask grid coordinates and stamp the parent. -/
def extractSubtask (tasks : List Task) (taskId subId mx my now : Nat) :
    List Task :=
  tasks.map fun t =>
    if t.id = taskId then
      { t with updatedAt := some now,
               subtasks := t.subtasks.map fun s =>
                 if s.id = subId then { s with x := some mx, y := some my } else s }
    else t

/-- `handleReturnSubtask` in App.jsx: clear the subtask's coordinates
and stamp the parent. -/
def returnSubtask (tasks : List Task) (taskId subId now : Nat) : List Task :=
  tasks.map fun t =>
    if t.id = taskId then
      { t with updatedAt := some now,
               subtasks := t.subtasks.map fun s =>
                 if s.id = subId then { s with x := none, y := none } else s }
    else t

/-! ### JavaScript Map model

Association lists with JS `Map` semantics: `set` on an existing key
replaces the value in place (key position is that of the first
insertion), `set` on a fresh key appends; iteration is list order. -/

/-- JS `map.set(k, v)`. -/
def mapSet : List (Nat × Task) → Nat → Task → List (Nat × Task)
  | [], k, v => [(k, v)]
  | p :: ps, k, v => if p.1 = k then (k, v) :: ps else p :: mapSet ps k v

/-- JS `map.get(k)` (also `map.has(k)` via `isSome`). -/
def mapGet : List (Nat × Task) → Nat → Option Task
  | [], _ => none
  | p :: ps, k => if p.1 = k then some p.2 else mapGet ps k

/-- JS `new Map(ts.map(t => [t.id, t]))`. -/
def mapOfList (ts : List Task) : List (Nat × Task) :=
  ts.foldl (fun m t => mapSet m t.id t) []

/-- The fold step applied by JS
`new Set([...localMap.keys(), ...cloudMap.keys()])`: keep the first
occurrence of each key, in order. -/
def dstep (ks : List Nat) (k : Nat) : List Nat :=
  if k ∈ ks then ks else ks ++ [k]

/-- JS `new Set(l)` flattened back to a list, in insertion order. -/
def dedupKeys (l : List Nat) : List Nat :=
  l.foldl dstep []

/-! ### The three-way merge of loadCloudData -/

/-- One step of the tombstone merge loop in loadCloudData: look up the
id; insert when absent (`existingVer` is `-1` there, below any natural
version) or when the incoming version is at least the stored one. -/
def mergeDeletedStep (m : List (Nat × Task)) (t : Task) : List (Nat × Task) :=
  match mapGet m t.id with
  | none => mapSet m t.id t
  | some e => if ver e ≤ ver t then mapSet m t.id t else m

/-- The merged tombstone list of loadCloudData (`finalDeleted`):
fold local then cloud tombstones through the LWW map and read the
values back out in insertion order. -/
def mergeDeleted (localDeleted cloudDeleted : List Task) : List Task :=
  ((localDeleted ++ cloudDeleted).foldl mergeDeletedStep []).map Prod.snd

/-- The per-identifier decision of the main-task merge loop in
loadCloudData: on both sides keep the local copy when its version is at
least the cloud one, else the cloud copy; a one-sided copy survives only
when the id is not in the merged tombstone map. -/
def mergeDecide (localMap cloudMap finalDeletedMap : List (Nat × Task))
    (id : Nat) : Option Task :=
  match mapGet localMap id, mapGet cloudMap id with
  | some l, some c => some (if ver c ≤ ver l then l else c)
  | none, some c => if (mapGet finalDeletedMap id).isSome then none else some c
  | some l, none => if (mapGet finalDeletedMap id).isSome then none else some l
  | none, none => none

/-- The merged active-task list of loadCloudData (`finalTasks`). -/
def mergeTasks (localTasks cloudTasks finalDeleted : List Task) : List Task :=
  let localMap := mapOfList localTasks
  let cloudMap := mapOfList cloudTasks
  let finalDeletedMap := mapOfList finalDeleted
  (dedupKeys (localMap.map Prod.fst ++ cloudMap.map Prod.fst)).foldl
    (fun acc id =>
      match mergeDecide localMap cloudMap finalDeletedMap id with
      | some t => acc ++ [t]
      | none => acc) []

/-- The pure core of `loadCloudData`: the pair
(`finalTasks`, `finalDeleted`) it installs as the new state. -/
def loadCloudData (localTasks localDeleted cloudTasks cloudDeleted : List Task) :
    List Task × List Task :=
  let finalDeleted := mergeDeleted localDeleted cloudDeleted
  (mergeTasks localTasks cloudTasks finalDeleted, finalDeleted)

/-! ### Association-list lemmas -/

/-- The key list of a map, in iteration order. -/
def keysOf (m : List (Nat × Task)) : List Nat := m.map Prod.fst

/-- Every stored pair is keyed by its value's id. -/
def ValOk (m : List (Nat × Task)) : Prop := ∀ p ∈ m, p.1 = p.2.id

/-- The key list has no duplicates. -/
def KeysNodup (m : List (Nat × Task)) : Prop := (keysOf m).Nodup

theorem keysOf_nil : keysOf [] = [] := rfl

theorem keysOf_cons (p : Nat × Task) (ps : List (Nat × Task)) :
    keysOf (p :: ps) = p.1 :: keysOf ps := rfl

theorem mapGet_mapSet_self (m : List (Nat × Task)) (k : Nat) (v : Task) :
    mapGet (mapSet m k v) k = some v := by
  induction m with
  | nil => simp [mapSet, mapGet]
  | cons p ps ih =>
    by_cases h : p.1 = k
    · simp [mapSet, h, mapGet]
    · simp [mapSet, h, mapGet, ih]

theorem mapGet_mapSet_ne (m : List (Nat × Task)) (k k' : Nat) (v : Task)
    (h : k' ≠ k) : mapGet (mapSet m k v) k' = mapGet m k' := by
  have hk : ¬ k = k' := fun h' => h h'.symm
  induction m with
  | nil => simp [mapSet, mapGet, hk]
  | cons p ps ih =>
    by_cases hp : p.1 = k
    · have hpk' : ¬ p.1 = k' := fun h' => hk (hp.symm.trans h')
      simp [mapSet, hp, mapGet, hk, hpk']
    · by_cases hp' : p.1 = k'
      · simp only [mapSet, if_neg hp, mapGet, if_pos hp']
      · simp only [mapSet, if_neg hp, mapGet, if_neg hp', ih]

theorem mapGet_isSome_iff (m : List (Nat × Task)) (k : Nat) :
    (mapGet m k).isSome = true ↔ k ∈ keysOf m := by
  induction m with
  | nil => simp [mapGet, keysOf]
  | cons p ps ih =>
    by_cases h : p.1 = k
    · simp [mapGet, h, keysOf_cons]
    · simp only [mapGet, if_neg h, keysOf_cons, List.mem_cons, ih]
      constructor
      · exact Or.inr
      · rintro (h' | h')
        · exact absurd h'.symm h
        · exact h'

theorem mapGet_eq_none_iff (m : List (Nat × Task)) (k : Nat) :
    mapGet m k = none ↔ k ∉ keysOf m := by
  rw [← mapGet_isSome_iff]
  cases mapGet m k <;> simp

theorem mapGet_mem (m : List (Nat × Task)) (k : Nat) (v : Task)
    (h : mapGet m k = some v) : (k, v) ∈ m := by
  induction m with
  | nil => simp [mapGet] at h
  | cons p ps ih =>
    by_cases hp : p.1 = k
    · simp only [mapGet, if_pos hp, Option.some.injEq] at h
      exact List.mem_cons.mpr (Or.inl (Prod.ext_iff.mpr ⟨hp.symm, h.symm⟩))
    · simp only [mapGet, if_neg hp] at h
      exact List.mem_cons_of_mem _ (ih h)

theorem mem_mapSet (m : List (Nat × Task)) (k : Nat) (v : Task) (p : Nat × Task)
    (h : p ∈ mapSet m k v) : p ∈ m ∨ p = (k, v) := by
  induction m with
  | nil =>
    simp [mapSet] at h
    exact Or.inr h
  | cons q qs ih =>
    by_cases hq : q.1 = k
    · simp only [mapSet, if_pos hq, List.mem_cons] at h
      rcases h with h | h
      · exact Or.inr h
      · exact Or.inl (List.mem_cons_of_mem _ h)
    · simp only [mapSet, if_neg hq, List.mem_cons] at h
      rcases h with h | h
      · exact Or.inl (h ▸ List.mem_cons_self _ _)
      · rcases ih h with h' | h'
        · exact Or.inl (List.mem_cons_of_mem _ h')
        · exact Or.inr h'

theorem valOk_mapSet (m : List (Nat × Task)) (v : Task) (hm : ValOk m) :
    ValOk (mapSet m v.id v) := by
  intro p hp
  rcases mem_mapSet m v.id v p hp with h | h
  · exact hm p h
  · rw [h]

theorem keysOf_mapSet (m : List (Nat × Task)) (k : Nat) (v : Task) :
    keysOf (mapSet m k v) = dstep (keysOf m) k := by
  induction m with
  | nil => simp [mapSet, keysOf, dstep]
  | cons p ps ih =>
    by_cases h : p.1 = k
    · simp [mapSet, h, keysOf_cons, dstep]
    · simp only [mapSet, if_neg h, keysOf_cons, ih, dstep, List.mem_cons]
      by_cases hk : k ∈ keysOf ps
      · simp [hk]
      · simp only [hk, or_false, if_false]
        have : ¬ k = p.1 := fun h' => h h'.symm
        simp [this, hk]

theorem mapSet_eq_append_of_not_mem (m : List (Nat × Task)) (k : Nat) (v : Task)
    (h : k ∉ keysOf m) : mapSet m k v = m ++ [(k, v)] := by
  induction m with
  | nil => simp [mapSet]
  | cons p ps ih =>
    simp only [keysOf_cons, List.mem_cons] at h
    push_neg at h
    have h1 : ¬ p.1 = k := fun hh => h.1 hh.symm
    simp [mapSet, h1, ih h.2]

theorem keysNodup_mapSet (m : List (Nat × Task)) (k : Nat) (v : Task)
    (h : KeysNodup m) : KeysNodup (mapSet m k v) := by
  unfold KeysNodup at *
  rw [keysOf_mapSet]
  unfold dstep
  by_cases hk : k ∈ keysOf m
  · simp [hk, h]
  · simp [hk, List.nodup_append, h]

/-! ### Lemmas about the key-dedup fold -/

theorem mem_foldl_dstep (l : List Nat) :
    ∀ acc k, k ∈ l.foldl dstep acc ↔ k ∈ acc ∨ k ∈ l := by
  induction l with
  | nil => simp
  | cons a l ih =>
    intro acc k
    simp only [List.foldl_cons, ih, dstep, List.mem_cons]
    by_cases ha : a ∈ acc
    · rw [if_pos ha]
      constructor
      · rintro (h | h)
        · exact Or.inl h
        · exact Or.inr (Or.inr h)
      · rintro (h | h | h)
        · exact Or.inl h
        · exact Or.inl (h ▸ ha)
        · exact Or.inr h
    · rw [if_neg ha]
      simp [List.mem_append, or_assoc]

theorem nodup_foldl_dstep (l : List Nat) :
    ∀ acc, acc.Nodup → (l.foldl dstep acc).Nodup := by
  induction l with
  | nil => intro acc h; exact h
  | cons a l ih =>
    intro acc h
    simp only [List.foldl_cons]
    apply ih
    unfold dstep
    by_cases ha : a ∈ acc
    · simp [ha, h]
    · simp [ha, List.nodup_append, h]

theorem mem_dedupKeys (l : List Nat) (k : Nat) : k ∈ dedupKeys l ↔ k ∈ l := by
  unfold dedupKeys
  rw [mem_foldl_dstep]
  simp

theorem nodup_dedupKeys (l : List Nat) : (dedupKeys l).Nodup :=
  nodup_foldl_dstep l [] List.nodup_nil

theorem foldl_dstep_of_subset (l : List Nat) :
    ∀ acc, (∀ k ∈ l, k ∈ acc) → l.foldl dstep acc = acc := by
  induction l with
  | nil => intro acc _; rfl
  | cons a l ih =>
    intro acc h
    have ha : a ∈ acc := h a (List.mem_cons_self a l)
    simp only [List.foldl_cons, dstep, if_pos ha]
    exact ih acc (fun k hk => h k (List.mem_cons_of_mem a hk))

theorem foldl_dstep_split (l : List Nat) :
    ∀ acc, ∃ s, l.foldl dstep acc = acc ++ s ∧ (∀ k ∈ s, k ∉ acc) ∧
      (∀ k ∈ s, k ∈ l) := by
  induction l with
  | nil =>
    intro acc
    exact ⟨[], by simp, by simp, by simp⟩
  | cons a l ih =>
    intro acc
    by_cases ha : a ∈ acc
    · obtain ⟨s, h1, h2, h3⟩ := ih acc
      refine ⟨s, ?_, h2, fun k hk => List.mem_cons_of_mem _ (h3 k hk)⟩
      simpa [dstep, ha] using h1
    · obtain ⟨s, h1, h2, h3⟩ := ih (acc ++ [a])
      refine ⟨a :: s, ?_, ?_, ?_⟩
      · simp only [List.foldl_cons, dstep, if_neg ha]
        rw [h1]
        simp
      · intro k hk
        rcases List.mem_cons.mp hk with h | h
        · exact h ▸ ha
        · exact fun hka => h2 k h (List.mem_append_left _ hka)
      · intro k hk
        rcases List.mem_cons.mp hk with h | h
        · exact h ▸ List.mem_cons_self a l
        · exact List.mem_cons_of_mem _ (h3 k h)

theorem foldl_dstep_of_nodup (l : List Nat) :
    ∀ acc, l.Nodup → (∀ k ∈ l, k ∉ acc) → l.foldl dstep acc = acc ++ l := by
  induction l with
  | nil => intro acc _ _; simp
  | cons a l ih =>
    intro acc hnd h
    have ha : a ∉ acc := h a (List.mem_cons_self a l)
    simp only [List.foldl_cons, dstep, if_neg ha]
    rw [ih (acc ++ [a]) (List.Nodup.of_cons hnd) ?_]
    · simp
    · intro k hk
      simp only [List.mem_append, List.mem_singleton]
      push_neg
      refine ⟨h k (List.mem_cons_of_mem a hk), ?_⟩
      intro hka
      exact (List.nodup_cons.mp hnd).1 (hka ▸ hk)

theorem dedupKeys_of_nodup (l : List Nat) (h : l.Nodup) : dedupKeys l = l := by
  unfold dedupKeys
  rw [foldl_dstep_of_nodup l [] h (by simp)]
  simp

/-! ### Lemmas about mapOfList -/

theorem keysOf_foldl_set (ts : List Task) :
    ∀ m : List (Nat × Task),
      keysOf (ts.foldl (fun m t => mapSet m t.id t) m) =
        (ts.map Task.id).foldl dstep (keysOf m) := by
  induction ts with
  | nil => intro m; rfl
  | cons t ts ih =>
    intro m
    simp only [List.foldl_cons, List.map_cons]
    rw [ih, keysOf_mapSet]

theorem valOk_foldl_set (ts : List Task) :
    ∀ m, ValOk m → ValOk (ts.foldl (fun m t => mapSet m t.id t) m) := by
  induction ts with
  | nil => intro m hm; exact hm
  | cons t ts ih => intro m hm; exact ih _ (valOk_mapSet m t hm)

theorem keysNodup_foldl_set (ts : List Task) :
    ∀ m, KeysNodup m → KeysNodup (ts.foldl (fun m t => mapSet m t.id t) m) := by
  induction ts with
  | nil => intro m hm; exact hm
  | cons t ts ih => intro m hm; exact ih _ (keysNodup_mapSet m t.id t hm)

theorem valOk_mapOfList (ts : List Task) : ValOk (mapOfList ts) :=
  valOk_foldl_set ts [] (by intro p hp; simp at hp)

theorem keysNodup_mapOfList (ts : List Task) : KeysNodup (mapOfList ts) :=
  keysNodup_foldl_set ts [] List.nodup_nil

theorem keysOf_mapOfList (ts : List Task) :
    keysOf (mapOfList ts) = dedupKeys (ts.map Task.id) :=
  keysOf_foldl_set ts []

theorem mem_keysOf_mapOfList (ts : List Task) (k : Nat) :
    k ∈ keysOf (mapOfList ts) ↔ k ∈ ts.map Task.id := by
  rw [keysOf_mapOfList, mem_dedupKeys]

theorem mapGet_mapOfList_isSome (ts : List Task) (k : Nat) :
    (mapGet (mapOfList ts) k).isSome = true ↔ k ∈ ts.map Task.id := by
  rw [mapGet_isSome_iff, mem_keysOf_mapOfList]

theorem mapGet_mapOfList_id (ts : List Task) (k : Nat) (v : Task)
    (h : mapGet (mapOfList ts) k = some v) : v.id = k :=
  (valOk_mapOfList ts (k, v) (mapGet_mem _ _ _ h)).symm

/-! ### The push loop as a filterMap -/

theorem foldl_push_eq_filterMap (d : Nat → Option Task) (ids : List Nat) :
    ∀ acc, ids.foldl (fun a i => match d i with | some t => a ++ [t] | none => a) acc =
      acc ++ ids.filterMap d := by
  induction ids with
  | nil => intro acc; simp
  | cons i ids ih =>
    intro acc
    simp only [List.foldl_cons, List.filterMap_cons]
    cases hd : d i with
    | none => simp [ih]
    | some t => simp [ih, List.append_assoc]

theorem mergeTasks_eq (lt ct fd : List Task) :
    mergeTasks lt ct fd =
      (dedupKeys (keysOf (mapOfList lt) ++ keysOf (mapOfList ct))).filterMap
        (mergeDecide (mapOfList lt) (mapOfList ct) (mapOfList fd)) := by
  unfold mergeTasks
  rw [foldl_push_eq_filterMap]
  rfl

theorem filterMap_id_eq_filter (d : Nat → Option Task)
    (hd : ∀ j t, d j = some t → t.id = j) :
    ∀ l : List Nat, (l.filterMap d).map Task.id = l.filter (fun j => (d j).isSome) := by
  intro l
  induction l with
  | nil => simp
  | cons j l ih =>
    cases h : d j with
    | none => simp [List.filterMap_cons, h, ih, List.filter_cons]
    | some t => simp [List.filterMap_cons, h, ih, List.filter_cons, hd j t h]

theorem filter_id_filterMap_of_not_mem (d : Nat → Option Task) (i : Nat)
    (hd : ∀ j t, d j = some t → t.id = j) :
    ∀ l : List Nat, i ∉ l →
      (l.filterMap d).filter (fun t => t.id = i) = [] := by
  intro l
  induction l with
  | nil => simp
  | cons j l ih =>
    intro hi
    simp only [List.mem_cons] at hi
    push_neg at hi
    cases h : d j with
    | none => simp [List.filterMap_cons, h, ih hi.2]
    | some t =>
      have : ¬ t.id = i := fun hh => hi.1 ((hd j t h ▸ hh).symm ▸ rfl)
      simp only [List.filterMap_cons, h, List.filter_cons]
      rw [if_neg (by simpa using this)]
      exact ih hi.2

theorem filter_id_filterMap (d : Nat → Option Task) (i : Nat)
    (hd : ∀ j t, d j = some t → t.id = j) :
    ∀ l : List Nat, l.Nodup → i ∈ l →
      (l.filterMap d).filter (fun t => t.id = i) = (d i).toList := by
  intro l
  induction l with
  | nil => simp
  | cons j l ih =>
    intro hnd hi
    rcases List.mem_cons.mp hi with hij | hil
    · subst hij
      have hnotl : i ∉ l := (List.nodup_cons.mp hnd).1
      cases h : d i with
      | none =>
        simp only [List.filterMap_cons, h]
        rw [filter_id_filterMap_of_not_mem d i hd l hnotl]
        simp
      | some t =>
        have hti : t.id = i := hd i t h
        simp only [List.filterMap_cons, h, List.filter_cons]
        rw [if_pos (by simpa using hti), filter_id_filterMap_of_not_mem d i hd l hnotl]
        simp
    · have hij : ¬ i = j := by
        intro hh
        exact (List.nodup_cons.mp hnd).1 (hh ▸ hil)
      cases h : d j with
      | none => simp [List.filterMap_cons, h, ih (List.Nodup.of_cons hnd) hil]
      | some t =>
        have : ¬ t.id = i := fun hh => hij ((hd j t h ▸ hh).symm ▸ rfl)
        simp only [List.filterMap_cons, h, List.filter_cons]
        rw [if_neg (by simpa using this)]
        exact ih (List.Nodup.of_cons hnd) hil

theorem mergeDecide_id (lm cm fdm : List (Nat × Task)) (hl : ValOk lm)
    (hc : ValOk cm) (i : Nat) (t : Task)
    (h : mergeDecide lm cm fdm i = some t) : t.id = i := by
  unfold mergeDecide at h
  cases hL : mapGet lm i with
  | none =>
    cases hC : mapGet cm i with
    | none => rw [hL, hC] at h; simp at h
    | some c =>
      rw [hL, hC] at h
      simp only at h
      split at h
      · simp at h
      · rw [Option.some_inj] at h
        subst h
        exact (hc _ (mapGet_mem _ _ _ hC)).symm
  | some l =>
    cases hC : mapGet cm i with
    | none =>
      rw [hL, hC] at h
      simp only at h
      split at h
      · simp at h
      · rw [Option.some_inj] at h
        subst h
        exact (hl _ (mapGet_mem _ _ _ hL)).symm
    | some c =>
      rw [hL, hC] at h
      simp only [Option.some_inj] at h
      subst h
      split
      · exact (hl _ (mapGet_mem _ _ _ hL)).symm
      · exact (hc _ (mapGet_mem _ _ _ hC)).symm

/-! ### Claims about the LWW merge -/

/-- C1: for a record identifier present in both the local and the cloud
task set, the loadCloudData merge keeps exactly the copy with the
greater version (the `updatedAt || id` marker): with versions v1 < v2
the merged active set contains precisely the copy carrying v2, whichever
side holds it, and at equal versions the choice is deterministic (the
local copy is kept). -/
theorem c1_lww_merge_keeps_greater_version
    (lt ld ct cd : List Task) (id : Nat) (l c : Task)
    (hL : mapGet (mapOfList lt) id = some l)
    (hC : mapGet (mapOfList ct) id = some c) :
    (ver l < ver c →
      (loadCloudData lt ld ct cd).1.filter (fun t => t.id = id) = [c]) ∧
    (ver c < ver l →
      (loadCloudData lt ld ct cd).1.filter (fun t => t.id = id) = [l]) ∧
    (ver l = ver c →
      (loadCloudData lt ld ct cd).1.filter (fun t => t.id = id) = [l]) := by
  have h1 : (loadCloudData lt ld ct cd).1 = mergeTasks lt ct (mergeDeleted ld cd) := rfl
  have hd : ∀ j t, mergeDecide (mapOfList lt) (mapOfList ct)
      (mapOfList (mergeDeleted ld cd)) j = some t → t.id = j :=
    fun j t h =>
      mergeDecide_id _ _ _ (valOk_mapOfList lt) (valOk_mapOfList ct) j t h
  have hmem : id ∈ dedupKeys (keysOf (mapOfList lt) ++ keysOf (mapOfList ct)) := by
    rw [mem_dedupKeys, List.mem_append]
    exact Or.inl ((mapGet_isSome_iff (mapOfList lt) id).mp (by simp [hL]))
  have hfilter : (loadCloudData lt ld ct cd).1.filter (fun t => t.id = id) =
      (mergeDecide (mapOfList lt) (mapOfList ct)
        (mapOfList (mergeDeleted ld cd)) id).toList := by
    rw [h1, mergeTasks_eq]
    exact filter_id_filterMap _ id hd _ (nodup_dedupKeys _) hmem
  have hdec : mergeDecide (mapOfList lt) (mapOfList ct)
      (mapOfList (mergeDeleted ld cd)) id =
      some (if ver c ≤ ver l then l else c) := by
    unfold mergeDecide
    rw [hL, hC]
  refine ⟨?_, ?_, ?_⟩
  · intro hv
    rw [hfilter, hdec, if_neg (by omega)]
    rfl
  · intro hv
    rw [hfilter, hdec, if_pos (by omega)]
    rfl
  · intro hv
    rw [hfilter, hdec, if_pos (by omega)]
    rfl

/-- A concrete active record used by the witnesses. -/
def wTask (i v : Nat) : Task :=
  { id := i, text := "", x := some 0, y := some 0, subtasks := [],
    completed := false, completedAt := none, updatedAt := some v,
    deletedAt := none }

/-- Witness for C1: a cloud copy at version 9 beats a local copy at
version 5 of the same record. -/
theorem c1_witness :
    ver (wTask 1 5) < ver (wTask 1 9) ∧
    (loadCloudData [wTask 1 5] [] [wTask 1 9] []).1.filter
      (fun t => t.id = 1) = [wTask 1 9] :=
  ⟨by decide,
    (c1_lww_merge_keeps_greater_version [wTask 1 5] [] [wTask 1 9] [] 1
      (wTask 1 5) (wTask 1 9) (by decide) (by decide)).1 (by decide)⟩

/-- C2: a record identifier present only in the local task set and
absent from the merged tombstone set survives the loadCloudData merge
unchanged: the merged active set contains exactly the local copy. -/
theorem c2_local_only_record_preserved
    (lt ld ct cd : List Task) (id : Nat) (l : Task)
    (hL : mapGet (mapOfList lt) id = some l)
    (hC : mapGet (mapOfList ct) id = none)
    (hD : id ∉ (mergeDeleted ld cd).map Task.id) :
    (loadCloudData lt ld ct cd).1.filter (fun t => t.id = id) = [l] := by
  have h1 : (loadCloudData lt ld ct cd).1 = mergeTasks lt ct (mergeDeleted ld cd) := rfl
  have hd : ∀ j t, mergeDecide (mapOfList lt) (mapOfList ct)
      (mapOfList (mergeDeleted ld cd)) j = some t → t.id = j :=
    fun j t h =>
      mergeDecide_id _ _ _ (valOk_mapOfList lt) (valOk_mapOfList ct) j t h
  have hmem : id ∈ dedupKeys (keysOf (mapOfList lt) ++ keysOf (mapOfList ct)) := by
    rw [mem_dedupKeys, List.mem_append]
    exact Or.inl ((mapGet_isSome_iff (mapOfList lt) id).mp (by simp [hL]))
  have hfilter : (loadCloudData lt ld ct cd).1.filter (fun t => t.id = id) =
      (mergeDecide (mapOfList lt) (mapOfList ct)
        (mapOfList (mergeDeleted ld cd)) id).toList := by
    rw [h1, mergeTasks_eq]
    exact filter_id_filterMap _ id hd _ (nodup_dedupKeys _) hmem
  have hfd : ¬ ((mapGet (mapOfList (mergeDeleted ld cd)) id).isSome = true) := by
    rw [mapGet_mapOfList_isSome]
    exact hD
  have hdec : mergeDecide (mapOfList lt) (mapOfList ct)
      (mapOfList (mergeDeleted ld cd)) id = some l := by
    unfold mergeDecide
    rw [hL, hC]
    simp only [if_neg hfd]
  rw [hfilter, hdec]
  rfl

/-- Witness for C2: a purely-local record with no tombstone anywhere
survives a merge against an empty cloud. -/
theorem c2_witness :
    (loadCloudData [wTask 1 5] [] [] []).1.filter (fun t => t.id = 1) =
      [wTask 1 5] :=
  c2_local_only_record_preserved [wTask 1 5] [] [] [] 1 (wTask 1 5)
    (by decide) (by decide) (by decide)

/-! ### Claims about the purge sweep, the upload guard, load and restore -/

/-- A concrete tombstone used by witnesses and counterexamples. -/
def wTomb (i v d : Nat) : Task :=
  { id := i, text := "", x := none, y := none, subtasks := [],
    completed := false, completedAt := none, updatedAt := some v,
    deletedAt := some d }

/-- Counterexample for C5: a tombstone whose age is exactly the 24-hour
retention boundary (`deletedAt = 0` swept at `now = 86400000`) is
removed by the sweep, not retained as the claim states. -/
theorem c5_counterexample : purgeDeleted 86400000 [wTomb 1 1 0] = [] := by decide

/-- C5 (amended): the purge sweep keeps exactly the tombstones whose
`deletedAt` is strictly newer than 24 hours before the sweep time; a
tombstone at or past the boundary — including one exactly at it — is
removed. -/
theorem c5_purge_boundary (now : Nat) (del : List Task) (t : Task) (d : Nat)
    (ht : t ∈ del) (hd : t.deletedAt = some d) :
    ((d : Int) ≤ (now : Int) - 24 * 60 * 60 * 1000 → t ∉ purgeDeleted now del) ∧
    ((now : Int) - 24 * 60 * 60 * 1000 < (d : Int) → t ∈ purgeDeleted now del) := by
  constructor
  · intro hle hmem
    unfold purgeDeleted at hmem
    have hp := List.of_mem_filter hmem
    rw [hd] at hp
    simp at hp
    omega
  · intro hlt
    refine List.mem_filter.mpr ⟨ht, ?_⟩
    rw [hd]
    simpa using hlt

/-- Witness for C5 (amended): with `now = 86400005`, a tombstone from
time 5 sits exactly at the boundary and is purged, while one from
time 6 survives. -/
theorem c5_witness :
    wTomb 1 1 5 ∉ purgeDeleted 86400005 [wTomb 1 1 5] ∧
    wTomb 1 1 6 ∈ purgeDeleted 86400005 [wTomb 1 1 6] :=
  ⟨(c5_purge_boundary 86400005 [wTomb 1 1 5] (wTomb 1 1 5) 5 (by decide)
      (by decide)).1 (by decide),
   (c5_purge_boundary 86400005 [wTomb 1 1 6] (wTomb 1 1 6) 6 (by decide)
      (by decide)).2 (by decide)⟩

/-- A scheduler state with an empty active set, a nonempty recycle bin
and no has-synced flag. -/
def sBin : SyncState :=
  { tasks := [], deletedTasks := [wTomb 1 1 0], syncInProgress := false,
    lastConvergedHash := none, hasSynced := false }

/-- Counterexample for C6: in a state whose active task set is empty and
whose has-synced flag is absent, the upload is nevertheless performed
because the recycle bin is nonempty — the code's guard requires both
lists to be empty. -/
theorem c6_counterexample : shouldUpload sBin = true := by decide

/-- C6 (amended): the upload is skipped whenever the active task set
and the tombstone set are both empty and the has-synced flag is
absent. -/
theorem c6_empty_upload_guard (s : SyncState) (h1 : s.tasks = [])
    (h2 : s.deletedTasks = []) (h3 : s.hasSynced = false) :
    shouldUpload s = false := by
  unfold shouldUpload
  simp [h1, h2, h3]

/-- A fully-empty, never-synced scheduler state. -/
def sEmpty : SyncState :=
  { tasks := [], deletedTasks := [], syncInProgress := false,
    lastConvergedHash := none, hasSynced := false }

/-- Witness for C6 (amended): a fully-empty never-synced state skips
the upload. -/
theorem c6_witness : shouldUpload sEmpty = false :=
  c6_empty_upload_guard sEmpty rfl rfl rfl

/-- C8: the initial load absorbs corruption instead of crashing: when
the primary value is malformed it returns the backup when that parses,
and the empty list when the backup is malformed or missing (the
function is total, so no case can throw). -/
theorem c8_load_fails_soft (ts defaults : List Task) :
    loadTasks (some none) (some (some ts)) defaults = ts ∧
    loadTasks (some none) (some none) defaults = [] ∧
    loadTasks (some none) none defaults = [] :=
  ⟨rfl, rfl, rfl⟩

/-- C9: restoring an identifier that is not in the recycle bin is a
"not found" no-op: both the active set and the tombstone set are left
unchanged (in particular a purged record cannot reappear), and being a
total function the operation cannot throw. -/
theorem c9_restore_absent_id_noop (tasks deleted : List Task) (id now : Nat)
    (h : ∀ t ∈ deleted, t.id ≠ id) :
    restoreTask tasks deleted id now = (tasks, deleted) := by
  unfold restoreTask
  have hf : deleted.find? (fun t => t.id = id) = none := by
    rw [List.find?_eq_none]
    intro t ht
    simpa using h t ht
  rw [hf]

/-- Witness for C9: restoring id 3, absent from a bin holding only
id 2, changes nothing. -/
theorem c9_witness :
    restoreTask [wTask 1 5] [wTomb 2 2 0] 3 99 = ([wTask 1 5], [wTomb 2 2 0]) :=
  c9_restore_absent_id_noop [wTask 1 5] [wTomb 2 2 0] 3 99 (by decide)

/-! ### Claim about toggleSubtask -/

theorem mem_zip_map_self (g : Subtask → Subtask) (l : List Subtask) :
    ∀ p ∈ l.zip (l.map g), p.2 = g p.1 ∧ p.1 ∈ l := by
  induction l with
  | nil => simp
  | cons s l ih =>
    intro p hp
    simp only [List.map_cons, List.zip_cons_cons, List.mem_cons] at hp
    rcases hp with hp | hp
    · rw [hp]
      exact ⟨rfl, List.mem_cons_self _ _⟩
    · obtain ⟨h1, h2⟩ := ih p hp
      exact ⟨h1, List.mem_cons_of_mem _ h2⟩

/-- The task produced by `toggleSubtask` for the matching parent. -/
def toggledTask (t : Task) (subId now : Nat) : Task :=
  { t with updatedAt := some now,
           subtasks := t.subtasks.map fun s =>
             if s.id = subId then toggleSubtaskFn s else s }

/-- C10: toggling a subtask that is incomplete and carries grid
coordinates marks it complete and clears both coordinates in the same
step; toggling a complete subtask back only clears the completion flag
(so it never acquires coordinates); every other subtask of the parent
is unchanged. -/
theorem c10_toggle_subtask_coordinates (tasks : List Task)
    (taskId subId now : Nat) (t : Task) (ht : t ∈ tasks) (hid : t.id = taskId) :
    ∃ t', t' ∈ toggleSubtask tasks taskId subId now ∧ t'.id = taskId ∧
      t'.subtasks.length = t.subtasks.length ∧
      ∀ p ∈ t.subtasks.zip t'.subtasks,
        (p.1.id ≠ subId → p.2 = p.1) ∧
        (p.1.id = subId → p.1.completed = false → p.1.x.isSome = true →
          p.2 = { p.1 with completed := true, x := none, y := none }) ∧
        (p.1.id = subId → p.1.completed = true →
          p.2 = { p.1 with completed := false }) := by
  refine ⟨toggledTask t subId now, ?_, hid, by simp [toggledTask], ?_⟩
  · have hmem := List.mem_map_of_mem
      (fun u => if u.id = taskId then toggledTask u subId now else u) ht
    unfold toggleSubtask
    simpa [toggledTask, hid] using hmem
  · intro p hp
    obtain ⟨hp2, _⟩ := mem_zip_map_self _ _ p hp
    refine ⟨?_, ?_, ?_⟩
    · intro hne
      rw [hp2, if_neg hne]
    · intro hsid hc hx
      rw [hp2, if_pos hsid]
      unfold toggleSubtaskFn
      simp [hc, hx]
    · intro hsid hc
      rw [hp2, if_pos hsid]
      unfold toggleSubtaskFn
      simp [hc]

/-- A concrete extracted subtask and its parent, for the C10 witness. -/
def wSub : Subtask :=
  { id := 101, text := "", completed := false, x := some 3, y := some 4 }

/-- Parent of `wSub`. -/
def wParent : Task :=
  { id := 1, text := "", x := some 1, y := some 2, subtasks := [wSub],
    completed := false, completedAt := none, updatedAt := some 5,
    deletedAt := none }

/-- Witness for C10: toggling the extracted subtask 101 of task 1. -/
theorem c10_witness :
    ∃ t', t' ∈ toggleSubtask [wParent] 1 101 99 ∧ t'.id = 1 ∧
      t'.subtasks.length = wParent.subtasks.length ∧
      ∀ p ∈ wParent.subtasks.zip t'.subtasks,
        (p.1.id ≠ 101 → p.2 = p.1) ∧
        (p.1.id = 101 → p.1.completed = false → p.1.x.isSome = true →
          p.2 = { p.1 with completed := true, x := none, y := none }) ∧
        (p.1.id = 101 → p.1.completed = true →
          p.2 = { p.1 with completed := false }) :=
  c10_toggle_subtask_coordinates [wParent] 1 101 99 wParent (by decide) rfl

/-! ### Claim C7: every mutation stamps a fresh version -/

theorem ver_stamp (t : Task) (now : Nat) (h : 0 < now)
    (hu : t.updatedAt = some now) : ver t = now := by
  unfold ver
  rw [hu]
  have h0 : ¬ now = 0 := by omega
  simp [h0]

theorem ver_of_map_stamp (f : Task → Task) (tasks : List Task) (κ now : Nat)
    (hpos : 0 < now)
    (hf : ∀ t, t.id = κ → (f t).updatedAt = some now)
    (hfn : ∀ t, ¬ t.id = κ → f t = t)
    (t' : Task) (ht' : t' ∈ tasks.map f) (hid' : t'.id = κ) : ver t' = now := by
  obtain ⟨t, ht, rfl⟩ := List.mem_map.mp ht'
  by_cases h : t.id = κ
  · exact ver_stamp _ now hpos (hf t h)
  · rw [hfn t h] at hid'
    exact absurd hid' h

/-- C7: every mutation of the mutation API — create, move, delete (the
tombstone it writes), restore, complete, edit task text, toggle / edit /
add a subtask, extract a subtask to the board and return it — stamps the
affected record's `updatedAt` with the current wall-clock value `now`,
so that, assuming the clock is non-decreasing (every version previously
held is at most `now`), the affected record's version after the
mutation equals `now`: not less than any previous version and not less
than the current counter. -/
theorem c7_mutations_stamp_fresh_version
    (tasks deleted : List Task) (id subId mx my now cAt delAt : Nat)
    (txt : String) (subs : List Subtask) (hpos : 0 < now)
    (hclock : ∀ t ∈ tasks, ver t ≤ now)
    (hclockD : ∀ t ∈ deleted, ver t ≤ now) :
    ((∀ t ∈ tasks, t.id ≠ now) →
      ∀ t' ∈ handleCreateTask tasks txt subs mx my now, t'.id = now →
        ver t' = now) ∧
    (∀ t' ∈ moveTask tasks id mx my now, t'.id = id →
      ver t' = now ∧ ∀ u ∈ tasks, ver u ≤ ver t') ∧
    ((∀ t ∈ deleted, t.id ≠ id) →
      ∀ t' ∈ (deleteTask tasks deleted id now delAt).2, t'.id = id →
        ver t' = now ∧ ∀ u ∈ tasks, ver u ≤ ver t') ∧
    ((∀ t ∈ tasks, t.id ≠ id) →
      ∀ t' ∈ (restoreTask tasks deleted id now).1, t'.id = id →
        ver t' = now ∧ ∀ u ∈ deleted, ver u ≤ ver t') ∧
    (∀ t' ∈ completeTask tasks id now cAt, t'.id = id →
      ver t' = now ∧ ∀ u ∈ tasks, ver u ≤ ver t') ∧
    (∀ t' ∈ editTask tasks id txt now, t'.id = id →
      ver t' = now ∧ ∀ u ∈ tasks, ver u ≤ ver t') ∧
    (∀ t' ∈ toggleSubtask tasks id subId now, t'.id = id →
      ver t' = now ∧ ∀ u ∈ tasks, ver u ≤ ver t') ∧
    (∀ t' ∈ editSubtask tasks id subId txt now, t'.id = id →
      ver t' = now ∧ ∀ u ∈ tasks, ver u ≤ ver t') ∧
    (∀ t' ∈ addSubtask tasks id txt now, t'.id = id →
      ver t' = now ∧ ∀ u ∈ tasks, ver u ≤ ver t') ∧
    (∀ t' ∈ extractSubtask tasks id subId mx my now, t'.id = id →
      ver t' = now ∧ ∀ u ∈ tasks, ver u ≤ ver t') ∧
    (∀ t' ∈ returnSubtask tasks id subId now, t'.id = id →
      ver t' = now ∧ ∀ u ∈ tasks, ver u ≤ ver t') := by
  refine ⟨?_, ?_, ?_, ?_, ?_, ?_, ?_, ?_, ?_, ?_, ?_⟩
  · intro hfresh t' ht' hid'
    unfold handleCreateTask at ht'
    rcases List.mem_append.mp ht' with h | h
    · exact absurd hid' (hfresh t' h)
    · rw [List.mem_singleton.mp h]
      exact ver_stamp _ now hpos rfl
  · intro t' ht' hid'
    have hv : ver t' = now :=
      ver_of_map_stamp _ tasks id now hpos (fun t h => by simp [h])
        (fun t h => by simp [h]) t' ht' hid'
    exact ⟨hv, fun u hu => hv ▸ hclock u hu⟩
  · intro hdel t' ht' hid'
    unfold deleteTask at ht'
    cases hfind : tasks.find? (fun t => t.id = id) with
    | none =>
      rw [hfind] at ht'
      exact absurd hid' (hdel t' ht')
    | some t =>
      rw [hfind] at ht'
      rcases List.mem_append.mp ht' with h | h
      · exact absurd hid' (hdel t' h)
      · rw [List.mem_singleton.mp h]
        have hv : ver { t with deletedAt := some delAt, updatedAt := some now } = now :=
          ver_stamp _ now hpos rfl
        exact ⟨hv, fun u hu => by rw [hv]; exact hclock u hu⟩
  · intro hact t' ht' hid'
    unfold restoreTask at ht'
    cases hfind : deleted.find? (fun t => t.id = id) with
    | none =>
      rw [hfind] at ht'
      exact absurd hid' (hact t' ht')
    | some t =>
      rw [hfind] at ht'
      rcases List.mem_append.mp ht' with h | h
      · exact absurd hid' (hact t' h)
      · rw [List.mem_singleton.mp h]
        have hv : ver { t with deletedAt := none, updatedAt := some now } = now :=
          ver_stamp _ now hpos rfl
        exact ⟨hv, fun u hu => by rw [hv]; exact hclockD u hu⟩
  · intro t' ht' hid'
    have hv : ver t' = now :=
      ver_of_map_stamp _ tasks id now hpos (fun t h => by simp [h])
        (fun t h => by simp [h]) t' ht' hid'
    exact ⟨hv, fun u hu => hv ▸ hclock u hu⟩
  · intro t' ht' hid'
    have hv : ver t' = now :=
      ver_of_map_stamp _ tasks id now hpos (fun t h => by simp [h])
        (fun t h => by simp [h]) t' ht' hid'
    exact ⟨hv, fun u hu => hv ▸ hclock u hu⟩
  · intro t' ht' hid'
    have hv : ver t' = now :=
      ver_of_map_stamp _ tasks id now hpos (fun t h => by simp [h])
        (fun t h => by simp [h]) t' ht' hid'
    exact ⟨hv, fun u hu => hv ▸ hclock u hu⟩
  · intro t' ht' hid'
    have hv : ver t' = now :=
      ver_of_map_stamp _ tasks id now hpos (fun t h => by simp [h])
        (fun t h => by simp [h]) t' ht' hid'
    exact ⟨hv, fun u hu => hv ▸ hclock u hu⟩
  · intro t' ht' hid'
    have hv : ver t' = now :=
      ver_of_map_stamp _ tasks id now hpos (fun t h => by simp [h])
        (fun t h => by simp [h]) t' ht' hid'
    exact ⟨hv, fun u hu => hv ▸ hclock u hu⟩
  · intro t' ht' hid'
    have hv : ver t' = now :=
      ver_of_map_stamp _ tasks id now hpos (fun t h => by simp [h])
        (fun t h => by simp [h]) t' ht' hid'
    exact ⟨hv, fun u hu => hv ▸ hclock u hu⟩
  · intro t' ht' hid'
    have hv : ver t' = now :=
      ver_of_map_stamp _ tasks id now hpos (fun t h => by simp [h])
        (fun t h => by simp [h]) t' ht' hid'
    exact ⟨hv, fun u hu => hv ▸ hclock u hu⟩

/-- The concrete record produced by the C7 witness move. -/
def wMoved : Task :=
  { wTask 1 5 with x := some 7, y := some 8, updatedAt := some 100 }

/-- Witness for C7: moving task 1 at time 100 stamps version 100. -/
theorem c7_witness : ver wMoved = 100 :=
  (((c7_mutations_stamp_fresh_version [wTask 1 5] [wTomb 2 2 0] 1 101 7 8 100
      50 60 "" [] (by decide) (by decide) (by decide)).2.1)
    wMoved (by decide) (by decide)).1

/-! ### Claim C3: active set and tombstone set stay disjoint -/

theorem mem_dstep (ks : List Nat) (j k : Nat) :
    k ∈ dstep ks j ↔ k ∈ ks ∨ k = j := by
  unfold dstep
  by_cases hj : j ∈ ks
  · rw [if_pos hj]
    constructor
    · exact Or.inl
    · rintro (h | h)
      · exact h
      · exact h ▸ hj
  · rw [if_neg hj]
    simp

theorem mem_keysOf_mds (m : List (Nat × Task)) (t : Task) (k : Nat)
    (h : k ∈ keysOf (mergeDeletedStep m t)) : k ∈ keysOf m ∨ k = t.id := by
  unfold mergeDeletedStep at h
  cases hget : mapGet m t.id with
  | none =>
    rw [hget] at h
    rw [keysOf_mapSet] at h
    exact (mem_dstep _ _ _).mp h
  | some e =>
    rw [hget] at h
    have h' : k ∈ keysOf (if ver e ≤ ver t then mapSet m t.id t else m) := h
    by_cases hv : ver e ≤ ver t
    · rw [if_pos hv, keysOf_mapSet] at h'
      exact (mem_dstep _ _ _).mp h'
    · rw [if_neg hv] at h'
      exact Or.inl h' 

theorem mem_keys_foldl_mds (ts : List Task) :
    ∀ m k, k ∈ keysOf (ts.foldl mergeDeletedStep m) →
      k ∈ keysOf m ∨ k ∈ ts.map Task.id := by
  induction ts with
  | nil => intro m k h; exact Or.inl h
  | cons t ts ih =>
    intro m k h
    rcases ih _ k h with h' | h'
    · rcases mem_keysOf_mds m t k h' with h'' | h''
      · exact Or.inl h''
      · exact Or.inr (by simp [h''])
    · exact Or.inr (List.mem_cons_of_mem _ h')

theorem valOk_mds (m : List (Nat × Task)) (t : Task) (h : ValOk m) :
    ValOk (mergeDeletedStep m t) := by
  unfold mergeDeletedStep
  cases mapGet m t.id with
  | none => exact valOk_mapSet m t h
  | some e =>
    show ValOk (if ver e ≤ ver t then mapSet m t.id t else m)
    by_cases hv : ver e ≤ ver t
    · rw [if_pos hv]
      exact valOk_mapSet m t h
    · rw [if_neg hv]
      exact h

theorem valOk_foldl_mds (ts : List Task) :
    ∀ m, ValOk m → ValOk (ts.foldl mergeDeletedStep m) := by
  induction ts with
  | nil => intro m h; exact h
  | cons t ts ih => intro m h; exact ih _ (valOk_mds m t h)

theorem map_snd_map_id_eq_keysOf :
    ∀ m : List (Nat × Task), ValOk m → (m.map Prod.snd).map Task.id = keysOf m := by
  intro m
  induction m with
  | nil => intro _; rfl
  | cons p ps ih =>
    intro h
    have hp := h p (List.mem_cons_self p ps)
    have ht : ValOk ps := fun q hq => h q (List.mem_cons_of_mem _ hq)
    simp only [List.map_cons, keysOf_cons]
    rw [← hp, ih ht]

theorem mergeDeleted_ids_subset (ld cd : List Task) (k : Nat)
    (h : k ∈ (mergeDeleted ld cd).map Task.id) :
    k ∈ ld.map Task.id ∨ k ∈ cd.map Task.id := by
  unfold mergeDeleted at h
  have hv : ValOk ((ld ++ cd).foldl mergeDeletedStep []) :=
    valOk_foldl_mds (ld ++ cd) [] (by intro p hp; simp at hp)
  rw [map_snd_map_id_eq_keysOf _ hv] at h
  rcases mem_keys_foldl_mds (ld ++ cd) [] k h with h' | h'
  · simp [keysOf] at h'
  · rw [List.map_append] at h'
    exact List.mem_append.mp h'

theorem mem_ids_mergeDeleted_iff (ld cd : List Task) (k : Nat) :
    k ∈ (mergeDeleted ld cd).map Task.id ↔
      (mapGet (mapOfList (mergeDeleted ld cd)) k).isSome = true := by
  rw [mapGet_mapOfList_isSome]

/-- C3: no identifier is ever simultaneously active and tombstoned:
assuming each input side is disjoint, the loadCloudData merge keeps the
merged active set disjoint from the merged tombstone set, and deleteTask
and restoreTask both preserve the disjointness of a state's active and
tombstone sets. -/
theorem c3_tombstone_exclusivity
    (lt ld ct cd tasks deleted : List Task) (id now delAt : Nat) :
    ((∀ i ∈ lt.map Task.id, i ∉ ld.map Task.id) →
     (∀ i ∈ ct.map Task.id, i ∉ cd.map Task.id) →
     ∀ i ∈ (loadCloudData lt ld ct cd).1.map Task.id,
       i ∉ (loadCloudData lt ld ct cd).2.map Task.id) ∧
    ((∀ i ∈ tasks.map Task.id, i ∉ deleted.map Task.id) →
     ∀ i ∈ (deleteTask tasks deleted id now delAt).1.map Task.id,
       i ∉ (deleteTask tasks deleted id now delAt).2.map Task.id) ∧
    ((∀ i ∈ tasks.map Task.id, i ∉ deleted.map Task.id) →
     ∀ i ∈ (restoreTask tasks deleted id now).1.map Task.id,
       i ∉ (restoreTask tasks deleted id now).2.map Task.id) := by
  refine ⟨?_, ?_, ?_⟩
  · intro hl hc i hi hdead
    obtain ⟨t', ht', rfl⟩ := List.mem_map.mp hi
    have hT : (loadCloudData lt ld ct cd).1 =
        (dedupKeys (keysOf (mapOfList lt) ++ keysOf (mapOfList ct))).filterMap
          (mergeDecide (mapOfList lt) (mapOfList ct)
            (mapOfList (mergeDeleted ld cd))) := mergeTasks_eq lt ct _
    rw [hT] at ht'
    obtain ⟨j, hj, hdj⟩ := List.mem_filterMap.mp ht'
    have hjid : t'.id = j :=
      mergeDecide_id _ _ _ (valOk_mapOfList lt) (valOk_mapOfList ct) j t' hdj
    have hdead2 : t'.id ∈ (mergeDeleted ld cd).map Task.id := hdead
    have hd' : mergeDecide (mapOfList lt) (mapOfList ct)
        (mapOfList (mergeDeleted ld cd)) t'.id = some t' := hjid ▸ hdj
    unfold mergeDecide at hd'
    cases hL : mapGet (mapOfList lt) t'.id with
    | none =>
      cases hC2 : mapGet (mapOfList ct) t'.id with
      | none => rw [hL, hC2] at hd'; simp at hd'
      | some c =>
        rw [hL, hC2] at hd'
        simp only at hd'
        split at hd'
        · simp at hd'
        · next hcond =>
          exact hcond ((mem_ids_mergeDeleted_iff ld cd t'.id).mp hdead2)
    | some l =>
      cases hC2 : mapGet (mapOfList ct) t'.id with
      | none =>
        rw [hL, hC2] at hd'
        simp only at hd'
        split at hd'
        · simp at hd'
        · next hcond =>
          exact hcond ((mem_ids_mergeDeleted_iff ld cd t'.id).mp hdead2)
      | some c =>
        have h1 : t'.id ∈ lt.map Task.id :=
          (mapGet_mapOfList_isSome lt t'.id).mp (by simp [hL])
        have h2 : t'.id ∈ ct.map Task.id :=
          (mapGet_mapOfList_isSome ct t'.id).mp (by simp [hC2])
        rcases mergeDeleted_ids_subset ld cd t'.id hdead2 with h3 | h3
        · exact hl t'.id h1 h3
        · exact hc t'.id h2 h3
  · intro hdisj i hi hdead
    unfold deleteTask at hi hdead
    cases hfind : tasks.find? (fun t => t.id = id) with
    | none =>
      rw [hfind] at hi hdead
      obtain ⟨u, hu, rfl⟩ := List.mem_map.mp hi
      exact hdisj u.id (List.mem_map_of_mem _ (List.mem_of_mem_filter hu)) hdead
    | some t =>
      rw [hfind] at hi hdead
      obtain ⟨u, hu, rfl⟩ := List.mem_map.mp hi
      have humem := List.mem_of_mem_filter hu
      have hune : u.id ≠ id := by simpa using List.of_mem_filter hu
      rw [List.map_append, List.mem_append] at hdead
      rcases hdead with hdead | hdead
      · exact hdisj u.id (List.mem_map_of_mem _ humem) hdead
      · have htid : t.id = id := by simpa using List.find?_some hfind
        simp only [List.map_cons, List.map_nil, List.mem_singleton] at hdead
        exact hune (hdead.trans htid)
  · intro hdisj i hi hdead
    unfold restoreTask at hi hdead
    cases hfind : deleted.find? (fun t => t.id = id) with
    | none =>
      rw [hfind] at hi hdead
      exact hdisj i hi hdead
    | some t =>
      rw [hfind] at hi hdead
      obtain ⟨u, hu, rfl⟩ := List.mem_map.mp hdead
      have hune : u.id ≠ id := by simpa using List.of_mem_filter hu
      rw [List.map_append, List.mem_append] at hi
      rcases hi with hi | hi
      · exact hdisj u.id hi (List.mem_map_of_mem _ (List.mem_of_mem_filter hu))
      · have htid : t.id = id := by simpa using List.find?_some hfind
        simp only [List.map_cons, List.map_nil, List.mem_singleton] at hi
        exact hune (hi.trans htid)

/-- Witness for C3: the merge of a one-task local state against a cloud
tombstone for a different id keeps the two merged sets disjoint. -/
theorem c3_witness :
    ∀ i ∈ (loadCloudData [wTask 1 5] [] [] [wTomb 2 2 0]).1.map Task.id,
      i ∉ (loadCloudData [wTask 1 5] [] [] [wTomb 2 2 0]).2.map Task.id :=
  (c3_tombstone_exclusivity [wTask 1 5] [] [] [wTomb 2 2 0] [] [] 0 0 0).1
    (by decide) (by decide)

/-! ### Claim C4, part one: idempotence of the tombstone merge -/

/-- Per-key evolution of the tombstone LWW map: a later copy replaces
the stored one exactly when its version is at least as large. -/
def stepOpt (o : Option Task) (t : Task) : Option Task :=
  match o with
  | none => some t
  | some e => some (if ver e ≤ ver t then t else e)

theorem mapGet_mds_self (m : List (Nat × Task)) (t : Task) :
    mapGet (mergeDeletedStep m t) t.id = stepOpt (mapGet m t.id) t := by
  cases hget : mapGet m t.id with
  | none =>
    have h1 : mergeDeletedStep m t = mapSet m t.id t := by
      unfold mergeDeletedStep
      rw [hget]
    rw [h1, mapGet_mapSet_self]
    rfl
  | some e =>
    have h1 : mergeDeletedStep m t = if ver e ≤ ver t then mapSet m t.id t else m := by
      unfold mergeDeletedStep
      rw [hget]
    rw [h1]
    by_cases hv : ver e ≤ ver t
    · rw [if_pos hv, mapGet_mapSet_self]
      simp only [stepOpt]
      rw [if_pos hv]
    · rw [if_neg hv, hget]
      simp only [stepOpt]
      rw [if_neg hv]

theorem mapGet_mds_ne (m : List (Nat × Task)) (t : Task) (k : Nat)
    (hk : k ≠ t.id) : mapGet (mergeDeletedStep m t) k = mapGet m k := by
  cases hget : mapGet m t.id with
  | none =>
    have h1 : mergeDeletedStep m t = mapSet m t.id t := by
      unfold mergeDeletedStep
      rw [hget]
    rw [h1, mapGet_mapSet_ne m t.id k t hk]
  | some e =>
    have h1 : mergeDeletedStep m t = if ver e ≤ ver t then mapSet m t.id t else m := by
      unfold mergeDeletedStep
      rw [hget]
    rw [h1]
    by_cases hv : ver e ≤ ver t
    · rw [if_pos hv, mapGet_mapSet_ne m t.id k t hk]
    · rw [if_neg hv]

theorem mapGet_foldl_mds (ts : List Task) :
    ∀ m k, mapGet (ts.foldl mergeDeletedStep m) k =
      (ts.filter (fun t => t.id = k)).foldl stepOpt (mapGet m k) := by
  induction ts with
  | nil => intro m k; rfl
  | cons t ts ih =>
    intro m k
    by_cases ht : t.id = k
    · subst ht
      rw [List.foldl_cons, ih, mapGet_mds_self,
        List.filter_cons_of_pos (by simp), List.foldl_cons]
    · rw [List.foldl_cons, ih, mapGet_mds_ne m t k (fun h => ht h.symm),
        List.filter_cons_of_neg (by simp [ht])]

theorem keysOf_mds (m : List (Nat × Task)) (t : Task) :
    keysOf (mergeDeletedStep m t) = dstep (keysOf m) t.id := by
  cases hget : mapGet m t.id with
  | none =>
    have h1 : mergeDeletedStep m t = mapSet m t.id t := by
      unfold mergeDeletedStep
      rw [hget]
    rw [h1, keysOf_mapSet]
  | some e =>
    have h1 : mergeDeletedStep m t = if ver e ≤ ver t then mapSet m t.id t else m := by
      unfold mergeDeletedStep
      rw [hget]
    rw [h1]
    by_cases hv : ver e ≤ ver t
    · rw [if_pos hv, keysOf_mapSet]
    · rw [if_neg hv]
      unfold dstep
      rw [if_pos ((mapGet_isSome_iff m t.id).mp (by simp [hget]))]

theorem keysOf_foldl_mds (ts : List Task) :
    ∀ m, keysOf (ts.foldl mergeDeletedStep m) =
      (ts.map Task.id).foldl dstep (keysOf m) := by
  induction ts with
  | nil => intro m; rfl
  | cons t ts ih =>
    intro m
    rw [List.foldl_cons, List.map_cons, List.foldl_cons, ih, keysOf_mds]

theorem nodup_dstep (ks : List Nat) (k : Nat) (h : ks.Nodup) :
    (dstep ks k).Nodup := by
  unfold dstep
  by_cases hk : k ∈ ks
  · rw [if_pos hk]
    exact h
  · rw [if_neg hk]
    simp [List.nodup_append, h, hk]

theorem keysNodup_foldl_mds (ts : List Task) :
    ∀ m, KeysNodup m → KeysNodup (ts.foldl mergeDeletedStep m) := by
  induction ts with
  | nil => intro m h; exact h
  | cons t ts ih =>
    intro m h
    rw [List.foldl_cons]
    apply ih
    unfold KeysNodup
    rw [keysOf_mds]
    exact nodup_dstep _ _ h

theorem stepOpt_mono (l : List Task) :
    ∀ e : Task, ∃ w, l.foldl stepOpt (some e) = some w ∧ ver e ≤ ver w := by
  induction l with
  | nil => intro e; exact ⟨e, rfl, le_refl _⟩
  | cons c l ih =>
    intro e
    by_cases hv : ver e ≤ ver c
    · obtain ⟨w, hw, hle⟩ := ih c
      refine ⟨w, ?_, le_trans hv hle⟩
      rw [List.foldl_cons]
      have hstep : stepOpt (some e) c = some c := by
        simp only [stepOpt]
        rw [if_pos hv]
      rw [hstep, hw]
    · obtain ⟨w, hw, hle⟩ := ih e
      refine ⟨w, ?_, hle⟩
      rw [List.foldl_cons]
      have hstep : stepOpt (some e) c = some e := by
        simp only [stepOpt]
        rw [if_neg hv]
      rw [hstep, hw]

theorem foldl_stepOpt_refold (l : List Task) :
    ∀ x : Option Task, l.foldl stepOpt (l.foldl stepOpt x) = l.foldl stepOpt x := by
  induction l with
  | nil => intro x; rfl
  | cons c l ih =>
    intro x
    rw [List.foldl_cons, List.foldl_cons]
    obtain ⟨e₀, he₀, hce₀⟩ :
        ∃ e₀, stepOpt x c = some e₀ ∧ (e₀ = c ∨ ver c < ver e₀) := by
      cases x with
      | none => exact ⟨c, rfl, Or.inl rfl⟩
      | some e =>
        by_cases hv : ver e ≤ ver c
        · refine ⟨c, ?_, Or.inl rfl⟩
          simp only [stepOpt]
          rw [if_pos hv]
        · refine ⟨e, ?_, Or.inr (by omega)⟩
          simp only [stepOpt]
          rw [if_neg hv]
    rw [he₀]
    obtain ⟨w, hw, hew⟩ := stepOpt_mono l e₀
    rw [hw]
    have hcw : ver c ≤ ver w := by
      rcases hce₀ with h | h
      · exact h ▸ hew
      · omega
    by_cases hvw : ver w ≤ ver c
    · have hstep : stepOpt (some w) c = some c := by
        simp only [stepOpt]
        rw [if_pos hvw]
      rw [hstep]
      rcases hce₀ with h | h
      · rw [← h]
        exact hw
      · omega
    · have hstep : stepOpt (some w) c = some w := by
        simp only [stepOpt]
        rw [if_neg hvw]
      rw [hstep]
      have := ih (some e₀)
      rw [hw] at this
      exact this

theorem rebuild_foldl_mds :
    ∀ (m pre : List (Nat × Task)), ValOk m → (keysOf pre ++ keysOf m).Nodup →
      (m.map Prod.snd).foldl mergeDeletedStep pre = pre ++ m := by
  intro m
  induction m with
  | nil => intro pre _ _; simp
  | cons p ps ih =>
    intro pre hv hnd
    rw [keysOf_cons] at hnd
    have hp : p.1 = p.2.id := hv p (List.mem_cons_self p ps)
    have hknotin : p.2.id ∉ keysOf pre := by
      intro hmem
      exact (List.nodup_append.mp hnd).2.2 (hp ▸ hmem) (hp ▸ List.mem_cons_self _ _)
    simp only [List.map_cons, List.foldl_cons]
    have hstep : mergeDeletedStep pre p.2 = pre ++ [(p.2.id, p.2)] := by
      unfold mergeDeletedStep
      rw [(mapGet_eq_none_iff pre p.2.id).mpr hknotin]
      exact mapSet_eq_append_of_not_mem pre p.2.id p.2 hknotin
    rw [hstep, ih (pre ++ [(p.2.id, p.2)])
      (fun q hq => hv q (List.mem_cons_of_mem _ hq)) ?_]
    · rw [List.append_assoc, List.singleton_append]
      have hpq : (p.2.id, p.2) = p := Prod.ext_iff.mpr ⟨hp.symm, rfl⟩
      rw [hpq]
    · have heq : keysOf (pre ++ [(p.2.id, p.2)]) ++ keysOf ps =
          keysOf pre ++ p.1 :: keysOf ps := by
        unfold keysOf
        rw [List.map_append, List.append_assoc]
        simp [hp]
      rw [heq]
      exact hnd

theorem alist_ext : ∀ (m m' : List (Nat × Task)), KeysNodup m → KeysNodup m' →
    keysOf m = keysOf m' → (∀ k, mapGet m k = mapGet m' k) → m = m' := by
  intro m
  induction m with
  | nil =>
    intro m' _ _ hkeys _
    cases m' with
    | nil => rfl
    | cons p ps => simp [keysOf] at hkeys
  | cons p ps ih =>
    intro m' hnd hnd' hkeys hget
    cases m' with
    | nil => simp [keysOf] at hkeys
    | cons q qs =>
      rw [keysOf_cons, keysOf_cons] at hkeys
      injection hkeys with h1 h2
      have hndp : p.1 ∉ keysOf ps := by
        have := hnd
        unfold KeysNodup at this
        rw [keysOf_cons] at this
        exact (List.nodup_cons.mp this).1
      have hndq : q.1 ∉ keysOf qs := by
        have := hnd'
        unfold KeysNodup at this
        rw [keysOf_cons] at this
        exact (List.nodup_cons.mp this).1
      have e1 : mapGet (p :: ps) p.1 = some p.2 := by simp [mapGet]
      have e2 : mapGet (q :: qs) p.1 = some q.2 := by
        have h1' : q.1 = p.1 := h1.symm
        simp [mapGet, h1']
      have hv : p.2 = q.2 := by
        have hgp := hget p.1
        rw [e1, e2] at hgp
        exact Option.some_inj.mp hgp
      have htailget : ∀ k, mapGet ps k = mapGet qs k := by
        intro k
        by_cases hk : k = p.1
        · subst hk
          have hndq' : p.1 ∉ keysOf qs := by
            rw [h1]
            exact hndq
          rw [(mapGet_eq_none_iff ps p.1).mpr hndp,
            (mapGet_eq_none_iff qs p.1).mpr hndq']
        · have hgk := hget k
          have hp1 : ¬ p.1 = k := fun h => hk h.symm
          have hq1 : ¬ q.1 = k := fun h => hk (h1.trans h).symm
          simp only [mapGet, if_neg hp1, if_neg hq1] at hgk
          exact hgk
      have htails : ps = qs := by
        apply ih qs ?_ ?_ h2 htailget
        · unfold KeysNodup at hnd ⊢
          rw [keysOf_cons] at hnd
          exact (List.nodup_cons.mp hnd).2
        · unfold KeysNodup at hnd' ⊢
          rw [keysOf_cons] at hnd'
          exact (List.nodup_cons.mp hnd').2
      rw [htails, Prod.ext_iff.mpr ⟨h1, hv⟩]

theorem mergeDeleted_idem (ld cd : List Task) :
    mergeDeleted (mergeDeleted ld cd) cd = mergeDeleted ld cd := by
  unfold mergeDeleted
  set m1 := (ld ++ cd).foldl mergeDeletedStep [] with hm1
  have hval : ValOk m1 := valOk_foldl_mds (ld ++ cd) [] (by intro p hp; simp at hp)
  have hnd : KeysNodup m1 := by
    apply keysNodup_foldl_mds (ld ++ cd) []
    unfold KeysNodup
    simp [keysOf]
  rw [List.foldl_append]
  rw [rebuild_foldl_mds m1 [] hval (by simp only [keysOf_nil, List.nil_append]; exact hnd)]
  simp only [List.nil_append]
  have hm0 : m1 = cd.foldl mergeDeletedStep (ld.foldl mergeDeletedStep []) := by
    rw [hm1, List.foldl_append]
  have hkeys : keysOf (cd.foldl mergeDeletedStep m1) = keysOf m1 := by
    rw [keysOf_foldl_mds]
    apply foldl_dstep_of_subset
    intro k hk
    rw [hm1, keysOf_foldl_mds, mem_foldl_dstep]
    right
    rw [List.map_append]
    exact List.mem_append_right _ hk
  have hgets : ∀ k, mapGet (cd.foldl mergeDeletedStep m1) k = mapGet m1 k := by
    intro k
    have h1 : mapGet m1 k = (cd.filter (fun t => t.id = k)).foldl stepOpt
        (mapGet (ld.foldl mergeDeletedStep []) k) := by
      rw [hm0, mapGet_foldl_mds]
    rw [mapGet_foldl_mds, h1, foldl_stepOpt_refold]
  have hfold : cd.foldl mergeDeletedStep m1 = m1 :=
    alist_ext _ _ (keysNodup_foldl_mds cd m1 hnd) hnd hkeys hgets
  rw [hfold]

/-! ### Claim C4, part two: idempotence of the active-task merge -/

theorem foldl_set_pairs :
    ∀ (ts : List Task) (pre : List (Nat × Task)),
      (∀ t ∈ ts, t.id ∉ keysOf pre) → (ts.map Task.id).Nodup →
      ts.foldl (fun m t => mapSet m t.id t) pre =
        pre ++ ts.map (fun t => (t.id, t)) := by
  intro ts
  induction ts with
  | nil => intro pre _ _; simp
  | cons t ts ih =>
    intro pre hnotin hnd
    have hnd' : (t.id :: ts.map Task.id).Nodup := by simpa using hnd
    simp only [List.foldl_cons, List.map_cons]
    rw [mapSet_eq_append_of_not_mem pre t.id t (hnotin t (List.mem_cons_self _ _))]
    rw [ih (pre ++ [(t.id, t)]) ?_ (List.nodup_cons.mp hnd').2]
    · rw [List.append_assoc, List.singleton_append]
    · intro u hu
      unfold keysOf
      rw [List.map_append, List.mem_append]
      push_neg
      refine ⟨hnotin u (List.mem_cons_of_mem _ hu), ?_⟩
      intro hmem
      simp only [List.map_cons, List.map_nil, List.mem_singleton] at hmem
      exact (List.nodup_cons.mp hnd').1 (hmem ▸ List.mem_map_of_mem Task.id hu)

theorem mapGet_map_pairs (ts : List Task) (k : Nat) :
    mapGet (ts.map (fun t => (t.id, t))) k = ts.find? (fun t => t.id = k) := by
  induction ts with
  | nil => rfl
  | cons t ts ih =>
    by_cases h : t.id = k
    · simp [mapGet, List.find?, h]
    · simp [mapGet, List.find?, h, ih]

theorem keysOf_map_pairs (ts : List Task) :
    keysOf (ts.map (fun t => (t.id, t))) = ts.map Task.id := by
  unfold keysOf
  rw [List.map_map]
  rfl

theorem find?_filterMap_of_not_mem (d : Nat → Option Task) (i : Nat)
    (hd : ∀ j t, d j = some t → t.id = j) :
    ∀ l : List Nat, i ∉ l → (l.filterMap d).find? (fun t => t.id = i) = none := by
  intro l hl
  rw [List.find?_eq_none]
  intro t ht
  obtain ⟨j, hj, hdj⟩ := List.mem_filterMap.mp ht
  simp only [decide_eq_true_eq]
  intro hti
  refine hl ?_
  rw [hti.symm.trans (hd j t hdj)]
  exact hj

theorem find?_filterMap (d : Nat → Option Task) (i : Nat)
    (hd : ∀ j t, d j = some t → t.id = j) :
    ∀ l : List Nat, l.Nodup → i ∈ l →
      (l.filterMap d).find? (fun t => t.id = i) = d i := by
  intro l
  induction l with
  | nil => simp
  | cons j l ih =>
    intro hnd hi
    rcases List.mem_cons.mp hi with hij | hil
    · subst hij
      have hnotl : i ∉ l := (List.nodup_cons.mp hnd).1
      cases h : d i with
      | none =>
        simp only [List.filterMap_cons, h]
        exact find?_filterMap_of_not_mem d i hd l hnotl
      | some t =>
        have hti : t.id = i := hd i t h
        simp only [List.filterMap_cons, h]
        simp [List.find?, hti]
    · have hij : ¬ i = j := fun hh => (List.nodup_cons.mp hnd).1 (hh ▸ hil)
      cases h : d j with
      | none =>
        simp only [List.filterMap_cons, h]
        exact ih (List.Nodup.of_cons hnd) hil
      | some t =>
        have htj : t.id = j := hd j t h
        have hne : ¬ t.id = i := fun hh => hij ((hh.symm.trans htj))
        simp only [List.filterMap_cons, h]
        rw [show ((t :: l.filterMap d).find? fun u => u.id = i) =
            (l.filterMap d).find? (fun u => u.id = i) from by simp [List.find?, hne]]
        exact ih (List.Nodup.of_cons hnd) hil

theorem filterMap_filter_isSome (d : Nat → Option Task) :
    ∀ l : List Nat, (l.filter (fun j => (d j).isSome)).filterMap d = l.filterMap d := by
  intro l
  induction l with
  | nil => rfl
  | cons j l ih =>
    cases h : d j with
    | none =>
      rw [List.filter_cons_of_neg (by simp [h]), List.filterMap_cons, h, ih]
    | some t =>
      rw [List.filter_cons_of_pos (by simp [h]), List.filterMap_cons, h,
        List.filterMap_cons, h, ih]

theorem filterMap_congr_mem (d d' : Nat → Option Task) :
    ∀ l : List Nat, (∀ i ∈ l, d i = d' i) → l.filterMap d = l.filterMap d' := by
  intro l
  induction l with
  | nil => intro _; rfl
  | cons j l ih =>
    intro h
    rw [List.filterMap_cons, List.filterMap_cons,
      h j (List.mem_cons_self _ _), ih (fun i hi => h i (List.mem_cons_of_mem _ hi))]

theorem filterMap_none_of_mem (d : Nat → Option Task) :
    ∀ l : List Nat, (∀ i ∈ l, d i = none) → l.filterMap d = [] := by
  intro l
  induction l with
  | nil => intro _; rfl
  | cons j l ih =>
    intro h
    rw [List.filterMap_cons, h j (List.mem_cons_self _ _),
      ih (fun i hi => h i (List.mem_cons_of_mem _ hi))]

theorem mergeDecide_round2 (lm lm₂ cm fdm : List (Nat × Task)) (i : Nat) (w : Task)
    (hw : mergeDecide lm cm fdm i = some w)
    (hget2 : mapGet lm₂ i = some w) :
    mergeDecide lm₂ cm fdm i = some w := by
  unfold mergeDecide at hw ⊢
  rw [hget2]
  cases hcm : mapGet cm i with
  | none =>
    rw [hcm] at hw
    show (if (mapGet fdm i).isSome = true then none else some w) = some w
    cases hlm : mapGet lm i with
    | none =>
      rw [hlm] at hw
      simp at hw
    | some l =>
      rw [hlm] at hw
      have hw' : (if (mapGet fdm i).isSome = true then none else some l) = some w := hw
      by_cases hfd : (mapGet fdm i).isSome = true
      · rw [if_pos hfd] at hw'
        simp at hw'
      · rw [if_neg hfd]
  | some c =>
    rw [hcm] at hw
    show some (if ver c ≤ ver w then w else c) = some w
    cases hlm : mapGet lm i with
    | none =>
      rw [hlm] at hw
      have hw' : (if (mapGet fdm i).isSome = true then none else some c) = some w := hw
      by_cases hfd : (mapGet fdm i).isSome = true
      · rw [if_pos hfd] at hw'
        simp at hw'
      · rw [if_neg hfd] at hw'
        rw [Option.some_inj] at hw'
        rw [← hw', if_pos (le_refl _)]
    | some l =>
      rw [hlm] at hw
      have hw' : (if ver c ≤ ver l then l else c) = w := Option.some_inj.mp hw
      by_cases hcl : ver c ≤ ver l
      · rw [if_pos hcl] at hw'
        rw [← hw', if_pos hcl]
      · rw [if_neg hcl] at hw'
        rw [← hw', if_pos (le_refl _)]

theorem mergeDecide_round2_none (lm₂ cm fdm : List (Nat × Task)) (i : Nat)
    (hget2 : mapGet lm₂ i = none) (hfd : (mapGet fdm i).isSome = true) :
    mergeDecide lm₂ cm fdm i = none := by
  unfold mergeDecide
  rw [hget2]
  cases hcm : mapGet cm i with
  | none => rfl
  | some c =>
    show (if (mapGet fdm i).isSome = true then none else some c) = none
    rw [if_pos hfd]

theorem mergeDecide_none_cloud (lm cm fdm : List (Nat × Task)) (i : Nat) (c : Task)
    (hcm : mapGet cm i = some c) (hnone : mergeDecide lm cm fdm i = none) :
    (mapGet fdm i).isSome = true := by
  unfold mergeDecide at hnone
  rw [hcm] at hnone
  cases hlm : mapGet lm i with
  | some l =>
    rw [hlm] at hnone
    simp at hnone
  | none =>
    rw [hlm] at hnone
    have h' : (if (mapGet fdm i).isSome = true then none else some c) = none := hnone
    by_cases hfd : (mapGet fdm i).isSome = true
    · exact hfd
    · rw [if_neg hfd] at h'
      simp at h'

theorem mergeTasks_idem (lt ct fd : List Task) :
    mergeTasks (mergeTasks lt ct fd) ct fd = mergeTasks lt ct fd := by
  have hdid : ∀ j t, mergeDecide (mapOfList lt) (mapOfList ct) (mapOfList fd) j =
      some t → t.id = j :=
    fun j t h => mergeDecide_id _ _ _ (valOk_mapOfList lt) (valOk_mapOfList ct) j t h
  have hT1 : mergeTasks lt ct fd =
      (dedupKeys (keysOf (mapOfList lt) ++ keysOf (mapOfList ct))).filterMap
        (mergeDecide (mapOfList lt) (mapOfList ct) (mapOfList fd)) :=
    mergeTasks_eq lt ct fd
  have hids₁nd : (dedupKeys (keysOf (mapOfList lt) ++ keysOf (mapOfList ct))).Nodup :=
    nodup_dedupKeys _
  have hT1ids : (mergeTasks lt ct fd).map Task.id =
      (dedupKeys (keysOf (mapOfList lt) ++ keysOf (mapOfList ct))).filter
        (fun j => (mergeDecide (mapOfList lt) (mapOfList ct) (mapOfList fd) j).isSome) := by
    rw [hT1]
    exact filterMap_id_eq_filter _ hdid _
  have hT1nd : ((mergeTasks lt ct fd).map Task.id).Nodup := by
    rw [hT1ids]
    exact List.Nodup.filter _ hids₁nd
  have hmol : mapOfList (mergeTasks lt ct fd) =
      (mergeTasks lt ct fd).map (fun t => (t.id, t)) := by
    unfold mapOfList
    rw [foldl_set_pairs (mergeTasks lt ct fd) [] (by intro u hu; simp [keysOf]) hT1nd]
    simp
  have hget2 : ∀ k, mapGet (mapOfList (mergeTasks lt ct fd)) k =
      (mergeTasks lt ct fd).find? (fun t => t.id = k) := by
    intro k
    rw [hmol, mapGet_map_pairs]
  have hkeys2 : keysOf (mapOfList (mergeTasks lt ct fd)) =
      (mergeTasks lt ct fd).map Task.id := by
    rw [hmol, keysOf_map_pairs]
  obtain ⟨s, hsplit, hs1, hs2⟩ :=
    foldl_dstep_split (keysOf (mapOfList ct)) ((mergeTasks lt ct fd).map Task.id)
  have hids2 : dedupKeys (keysOf (mapOfList (mergeTasks lt ct fd)) ++
      keysOf (mapOfList ct)) = (mergeTasks lt ct fd).map Task.id ++ s := by
    rw [hkeys2]
    unfold dedupKeys
    rw [List.foldl_append]
    have hself : ((mergeTasks lt ct fd).map Task.id).foldl dstep [] =
        (mergeTasks lt ct fd).map Task.id := dedupKeys_of_nodup _ hT1nd
    rw [hself, hsplit]
  have hfact1 : ∀ i ∈ (mergeTasks lt ct fd).map Task.id,
      mergeDecide (mapOfList (mergeTasks lt ct fd)) (mapOfList ct) (mapOfList fd) i =
        mergeDecide (mapOfList lt) (mapOfList ct) (mapOfList fd) i := by
    intro i hi
    have hi' := hi
    rw [hT1ids] at hi'
    have hiids : i ∈ dedupKeys (keysOf (mapOfList lt) ++ keysOf (mapOfList ct)) :=
      List.mem_of_mem_filter hi'
    have hsome : (mergeDecide (mapOfList lt) (mapOfList ct) (mapOfList fd) i).isSome
        = true := by simpa using List.of_mem_filter hi'
    obtain ⟨w, hw⟩ := Option.isSome_iff_exists.mp hsome
    have hfind : (mergeTasks lt ct fd).find? (fun t => t.id = i) =
        mergeDecide (mapOfList lt) (mapOfList ct) (mapOfList fd) i := by
      rw [hT1]
      exact find?_filterMap _ i hdid _ hids₁nd hiids
    have hget2i : mapGet (mapOfList (mergeTasks lt ct fd)) i = some w := by
      rw [hget2 i, hfind, hw]
    rw [hw]
    exact mergeDecide_round2 (mapOfList lt) (mapOfList (mergeTasks lt ct fd))
      (mapOfList ct) (mapOfList fd) i w hw hget2i
  have hfact2 : ∀ i ∈ s,
      mergeDecide (mapOfList (mergeTasks lt ct fd)) (mapOfList ct) (mapOfList fd) i =
        none := by
    intro i hi
    have hinotT1 : i ∉ (mergeTasks lt ct fd).map Task.id := hs1 i hi
    have hicm : i ∈ keysOf (mapOfList ct) := hs2 i hi
    obtain ⟨c, hc⟩ := Option.isSome_iff_exists.mp
      ((mapGet_isSome_iff (mapOfList ct) i).mpr hicm)
    have hd1none : mergeDecide (mapOfList lt) (mapOfList ct) (mapOfList fd) i =
        none := by
      cases hd1 : mergeDecide (mapOfList lt) (mapOfList ct) (mapOfList fd) i with
      | none => rfl
      | some t =>
        exfalso
        apply hinotT1
        rw [hT1ids, List.mem_filter]
        constructor
        · rw [mem_dedupKeys]
          exact List.mem_append_right _ hicm
        · rw [hd1]
          rfl
    have hfd : (mapGet (mapOfList fd) i).isSome = true :=
      mergeDecide_none_cloud (mapOfList lt) (mapOfList ct) (mapOfList fd) i c hc hd1none
    have hg2 : mapGet (mapOfList (mergeTasks lt ct fd)) i = none := by
      rw [hget2 i, List.find?_eq_none]
      intro t ht
      simp only [decide_eq_true_eq]
      intro hti
      exact hinotT1 (hti ▸ List.mem_map_of_mem Task.id ht)
    exact mergeDecide_round2_none (mapOfList (mergeTasks lt ct fd)) (mapOfList ct)
      (mapOfList fd) i hg2 hfd
  rw [mergeTasks_eq (mergeTasks lt ct fd) ct fd, hids2, List.filterMap_append,
    filterMap_congr_mem _ _ _ hfact1, filterMap_none_of_mem _ _ hfact2,
    List.append_nil, hT1ids, filterMap_filter_isSome, ← hT1]

/-- C4: running the loadCloudData merge a second time — with the same
cloud state and the first merge's output as the new local state — yields
exactly the same merged active list and merged tombstone list as the
first merge: the three-way merge is idempotent. -/
theorem c4_merge_idempotent (lt ld ct cd : List Task) :
    loadCloudData (loadCloudData lt ld ct cd).1 (loadCloudData lt ld ct cd).2 ct cd =
      loadCloudData lt ld ct cd := by
  show (mergeTasks (mergeTasks lt ct (mergeDeleted ld cd)) ct
      (mergeDeleted (mergeDeleted ld cd) cd),
    mergeDeleted (mergeDeleted ld cd) cd) =
    (mergeTasks lt ct (mergeDeleted ld cd), mergeDeleted ld cd)
  rw [mergeDeleted_idem ld cd, mergeTasks_idem lt ct (mergeDeleted ld cd)]

end Eisenpower
